import Mathlib

/-!
Verification of the User domain, service and persistence-adapter logic of
the go-scaffolding repository.

Strings are modelled as `List Char` (Go strings are UTF-8 sequences of
runes).  Go's `len` on a string counts UTF-8 bytes, which we model with
`strLen`; positions, trimming and character classes operate on runes,
which `List Char` models directly.  Timestamps (`time.Time`) are modelled
as natural numbers; `time.Now()` becomes an explicit `now` parameter
(Go's clock is monotonic across successive `time.Now()` calls, which
theorems state as an explicit hypothesis where needed).  `uuid.New()`
becomes an explicit `freshId` parameter.  The injected
`ports.UserRepository` interface becomes a structure of functions, and
fallible Go calls return `Except Err`.
-/

/-- Error taxonomy of the domain package (`errors.go`): the sentinel
values `ErrUserNotFound`, `ErrInvalidEmail`, `ErrInvalidName`,
`ErrDuplicateEmail`, plus `store msg` for any other persistence-layer
error carrying its message (as returned by the database driver). -/
inductive Err where
  | invalidEmail
  | invalidName
  | duplicateEmail
  | userNotFound
  | store (msg : List Char)
  deriving DecidableEq, Repr

/-- Number of bytes of the UTF-8 encoding of a rune; Go's `len` on a
string is the sum of these over its runes. -/
def utf8Len (c : Char) : Nat :=
  if c.toNat ≤ 0x7F then 1
  else if c.toNat ≤ 0x7FF then 2
  else if c.toNat ≤ 0xFFFF then 3
  else 4

/-- Go `len(s)` for a string: its UTF-8 byte length. -/
def strLen : List Char → Nat
  | [] => 0
  | c :: r => utf8Len c + strLen r

/-- Go `unicode.IsSpace`: the Unicode White_Space runes
(tab, LF, VT, FF, CR, space, NEL, NBSP and the higher space runes). -/
def goIsSpace (c : Char) : Bool :=
  c.toNat = 9 || c.toNat = 10 || c.toNat = 11 || c.toNat = 12 ||
  c.toNat = 13 || c.toNat = 32 || c.toNat = 0x85 || c.toNat = 0xA0 ||
  c.toNat = 0x1680 || (0x2000 ≤ c.toNat && c.toNat ≤ 0x200A) ||
  c.toNat = 0x2028 || c.toNat = 0x2029 || c.toNat = 0x202F ||
  c.toNat = 0x205F || c.toNat = 0x3000

/-- Go `strings.TrimSpace`: drop leading and trailing White_Space runes. -/
def TrimSpace (s : List Char) : List Char :=
  ((s.dropWhile goIsSpace).reverse.dropWhile goIsSpace).reverse

/-- The `maxEmailLength` constant of `user.go`. -/
def maxEmailLength : Nat := 254

/-- The `maxNameLength` constant of `user.go`. -/
def maxNameLength : Nat := 255

/-- The `isValidName` function of `user.go`: an empty name or a name
whose byte length exceeds `maxNameLength` yields `ErrInvalidName`,
otherwise nil (`none`).  Its caller passes the already-trimmed name. -/
def isValidName (name : List Char) : Option Err :=
  if name = [] then some .invalidName
  else if maxNameLength < strLen name then some .invalidName
  else none

/-- The regex character class `[a-zA-Z0-9._%+-]` of the local part in
`emailRegex` of `user.go`. -/
def isLocalChar (c : Char) : Bool :=
  (48 ≤ c.toNat && c.toNat ≤ 57) || (65 ≤ c.toNat && c.toNat ≤ 90) ||
  (97 ≤ c.toNat && c.toNat ≤ 122) ||
  c = '.' || c = '_' || c = '%' || c = '+' || c = '-'

/-- The regex character class `[a-zA-Z0-9.-]` of the domain part in
`emailRegex` of `user.go`. -/
def isDomainChar (c : Char) : Bool :=
  (48 ≤ c.toNat && c.toNat ≤ 57) || (65 ≤ c.toNat && c.toNat ≤ 90) ||
  (97 ≤ c.toNat && c.toNat ≤ 122) ||
  c = '.' || c = '-'

/-- The regex character class `[a-zA-Z]` of the top-level label in
`emailRegex` of `user.go`. -/
def isTldChar (c : Char) : Bool :=
  (65 ≤ c.toNat && c.toNat ≤ 90) || (97 ≤ c.toNat && c.toNat ≤ 122)

/-- Go `strings.Split(s, sep)` for a one-rune separator. -/
def splitOnChar (sep : Char) : List Char → List (List Char)
  | [] => [[]]
  | c :: rest =>
    if c = sep then [] :: splitOnChar sep rest
    else
      match splitOnChar sep rest with
      | [] => [[c]]
      | h :: t => (c :: h) :: t

/-- Split a string at its last `'.'`: `some (before, after)` when a dot
occurs, `none` otherwise.  Helper for the executable form of the email
regular expression. -/
def lastDotSplit (r : List Char) : Option (List Char × List Char) :=
  match r.reverse.dropWhile (fun c => c != '.') with
  | [] => none
  | _ :: backRev =>
    some (backRev.reverse, (r.reverse.takeWhile (fun c => c != '.')).reverse)

/-- The anchored regular expression
`^[a-zA-Z0-9._%+-]+@[a-zA-Z0-9.-]+\.[a-zA-Z]{2,}$` of `user.go`, as an
executable matcher.  Neither character class contains `'@'`, so a match
forces exactly one `'@'` in the string, splitting it into the local part
and the rest; the `[a-zA-Z]{2,}` tail contains no `'.'`, so the literal
`\.` of the pattern must match the last dot of the rest.  The lemma
`emailRegex_iff` below proves this matcher equivalent to the existence
of a decomposition in the language of the pattern. -/
def emailRegex (s : List Char) : Bool :=
  match splitOnChar '@' s with
  | [localPart, rest] =>
    !localPart.isEmpty && localPart.all isLocalChar &&
      (match lastDotSplit rest with
       | some (domRest, tld) =>
         !domRest.isEmpty && domRest.all isDomainChar &&
           decide (2 ≤ tld.length) && tld.all isTldChar
       | none => false)
  | _ => false

/-- Go `strings.Contains(s, sub)`: `sub` occurs as a contiguous
substring of `s`. -/
def containsSub (sub : List Char) : List Char → Bool
  | [] => sub.isEmpty
  | c :: rest => sub.isPrefixOf (c :: rest) || containsSub sub rest

/-- The two consecutive dots that `isValidEmail` searches for. -/
def dotDot : List Char := ['.', '.']

/-- The `isValidEmail` function of `user.go`: length check, regex check,
split into local and domain at `'@'` (requiring exactly two parts), no
`".."` anywhere, and no leading or trailing dot in either part. -/
def isValidEmail (email : List Char) : Bool :=
  if maxEmailLength < strLen email then false
  else if !(emailRegex email) then false
  else
    match splitOnChar '@' email with
    | [localPart, domainPart] =>
      if containsSub dotDot email then false
      else if ['.'].isPrefixOf localPart || ['.'].isSuffixOf localPart then false
      else if ['.'].isPrefixOf domainPart || ['.'].isSuffixOf domainPart then false
      else true
    | _ => false

/-- The `domain.User` entity of `user.go`.  `time.Time` fields are
modelled as natural-number timestamps. -/
structure User where
  id : List Char
  email : List Char
  name : List Char
  createdAt : Nat
  updatedAt : Nat
  deriving DecidableEq, Repr

/-- The `domain.NewUser` factory of `user.go`: validates the email,
trims and validates the name, then builds the entity with a fresh
identifier (`uuid.New().String()`, modelled by the `freshId` parameter)
and `CreatedAt = UpdatedAt = now` (`time.Now()`, modelled by `now`). -/
def NewUser (freshId : List Char) (now : Nat) (email name : List Char) :
    Except Err User :=
  if !(isValidEmail email) then .error .invalidEmail
  else
    match isValidName (TrimSpace name) with
    | some e => .error e
    | none =>
      .ok { id := freshId, email := email, name := TrimSpace name,
            createdAt := now, updatedAt := now }

/-- The `(*User).UpdateName` method of `user.go`.  The Go method mutates
its receiver; we model it by returning the post-state together with the
returned error: on validation failure the receiver (first component) is
returned unchanged, on success its name is the trimmed input and its
`UpdatedAt` is `now`. -/
def UpdateName (u : User) (now : Nat) (name : List Char) :
    User × Option Err :=
  match isValidName (TrimSpace name) with
  | some e => (u, some e)
  | none => ({ u with name := TrimSpace name, updatedAt := now }, none)

/-- The injected `ports.UserRepository` interface, as a structure of
functions.  `context.Context` parameters carry no information used by
the core logic and are omitted; Go `int` pagination bounds are `Int`. -/
structure Repo where
  create : User → Except Err Unit
  getByID : List Char → Except Err User
  getByEmail : List Char → Except Err User
  update : User → Except Err Unit
  delete : List Char → Except Err Unit
  list : Int → Int → Except Err (List User)

/-- The `UserService.CreateUser` method of `user_service.go`: look up by
email; a successful lookup is a duplicate; a lookup error other than
`ErrUserNotFound` propagates; otherwise construct via `NewUser` and
persist via the repository `create`, propagating their errors. -/
def CreateUser (repo : Repo) (freshId : List Char) (now : Nat)
    (email name : List Char) : Except Err User :=
  match repo.getByEmail email with
  | .ok _ => .error .duplicateEmail
  | .error e =>
    if e ≠ .userNotFound then .error e
    else
      match NewUser freshId now email name with
      | .error e2 => .error e2
      | .ok user =>
        match repo.create user with
        | .error e2 => .error e2
        | .ok _ => .ok user

/-- The `UserService.GetUser` method of `user_service.go`. -/
def GetUser (repo : Repo) (id : List Char) : Except Err User :=
  repo.getByID id

/-- The `UserService.GetUserByEmail` method of `user_service.go`. -/
def GetUserByEmail (repo : Repo) (email : List Char) : Except Err User :=
  repo.getByEmail email

/-- The `UserService.UpdateUser` method of `user_service.go`: fetch by
id (propagating errors), rename the fetched entity (propagating a
validation error without persisting), then persist via the repository
`update` and return the mutated entity. -/
def UpdateUser (repo : Repo) (now : Nat) (id name : List Char) :
    Except Err User :=
  match repo.getByID id with
  | .error e => .error e
  | .ok user =>
    match UpdateName user now name with
    | (_, some e) => .error e
    | (user2, none) =>
      match repo.update user2 with
      | .error e => .error e
      | .ok _ => .ok user2

/-- The `UserService.DeleteUser` method of `user_service.go`. -/
def DeleteUser (repo : Repo) (id : List Char) : Except Err Unit :=
  repo.delete id

/-- The `UserService.ListUsers` method of `user_service.go`: a pure
passthrough to the repository `list`. -/
def ListUsers (repo : Repo) (limit offset : Int) : Except Err (List User) :=
  repo.list limit offset

/-- The PostgreSQL unique-constraint message checked by
`isDuplicateEmailError` in `repository.go`. -/
def pgDupText : List Char :=
  "duplicate key value violates unique constraint".toList

/-- The SQLite unique-constraint message checked by
`isDuplicateEmailError` in `repository.go`. -/
def sqliteDupText : List Char := "UNIQUE constraint failed".toList

/-- The substring of `isDuplicateEmailError` selecting the email
constraint. -/
def emailText : List Char := "email".toList

/-- The `isDuplicateEmailError` function of `repository.go` applied to a
non-nil error with message `msg`: a unique-constraint violation message
that mentions `email`. -/
def isDuplicateEmailError (msg : List Char) : Bool :=
  if containsSub pgDupText msg || containsSub sqliteDupText msg then
    containsSub emailText msg
  else false

/-- The error mapping of `userRepository.Create` in `repository.go`:
the database call outcome is `none` (no error) or `some msg` (an error
with message `msg`); a unique-constraint violation on email becomes
`ErrDuplicateEmail`, any other database error propagates unchanged. -/
def pgCreate (dbErr : Option (List Char)) : Except Err Unit :=
  match dbErr with
  | none => .ok ()
  | some msg =>
    if isDuplicateEmailError msg then .error .duplicateEmail
    else .error (.store msg)

/-- The `userRepository.GetByEmail` query of `repository.go` over a
table snapshot: `WHERE email = ?` compares the raw strings exactly
(`varchar` equality is case-sensitive), `First` returns the first match,
and `gorm.ErrRecordNotFound` is mapped to `ErrUserNotFound`. -/
def pgGetByEmail (rows : List User) (email : List Char) :
    Except Err User :=
  match rows.find? (fun u => u.email == email) with
  | some u => .ok u
  | none => .error .userNotFound

/-- The `userRepository.GetByID` query of `repository.go` over a table
snapshot, with `gorm.ErrRecordNotFound` mapped to `ErrUserNotFound`. -/
def pgGetByID (rows : List User) (id : List Char) : Except Err User :=
  match rows.find? (fun u => u.id == id) with
  | some u => .ok u
  | none => .error .userNotFound

/-- Insertion step for sorting rows by `created_at` descending. -/
def insertByCreatedDesc (u : User) : List User → List User
  | [] => [u]
  | v :: rest =>
    if v.createdAt ≤ u.createdAt then u :: v :: rest
    else v :: insertByCreatedDesc u rest

/-- Sorting by `created_at` descending: the `ORDER BY created_at DESC`
clause of the `userRepository.List` query in `repository.go`. -/
def sortByCreatedDesc : List User → List User
  | [] => []
  | u :: rest => insertByCreatedDesc u (sortByCreatedDesc rest)

/-- The `userRepository.List` query of `repository.go` over a table
snapshot: `ORDER BY created_at DESC`, then `OFFSET`, then `LIMIT`; per
GORM semantics a negative offset or limit means the clause is absent. -/
def pgList (rows : List User) (limit offset : Int) : List User :=
  let sorted := sortByCreatedDesc rows
  let afterOffset := if 0 ≤ offset then sorted.drop offset.toNat else sorted
  if 0 ≤ limit then afterOffset.take limit.toNat else afterOffset

/-- The whole PostgreSQL adapter of `repository.go` over a table
snapshot `rows`: exact-match lookups, a case-sensitive unique index on
`email` guarding `create`, `RowsAffected = 0` mapped to
`ErrUserNotFound` in `update` and `delete`, and the ordered, paginated
`list`. -/
def repoOf (rows : List User) : Repo :=
  { create := fun u =>
      if rows.any (fun v => v.email == u.email) then .error .duplicateEmail
      else .ok ()
    getByID := pgGetByID rows
    getByEmail := pgGetByEmail rows
    update := fun u =>
      if rows.any (fun v => v.id == u.id) then .ok ()
      else .error .userNotFound
    delete := fun i =>
      if rows.any (fun v => v.id == i) then .ok ()
      else .error .userNotFound
    list := fun limit offset => .ok (pgList rows limit offset) }

/-- Descending creation-time order between two users. -/
def createdDescOrder (a b : User) : Prop := b.createdAt ≤ a.createdAt

/-- Fixture users with distinct creation times, for the concrete
scenarios. -/
def demoU1 : User :=
  { id := "u1".toList, email := "u1@example.com".toList,
    name := "One".toList, createdAt := 1, updatedAt := 1 }

def demoU2 : User :=
  { id := "u2".toList, email := "u2@example.com".toList,
    name := "Two".toList, createdAt := 2, updatedAt := 2 }

def demoU3 : User :=
  { id := "u3".toList, email := "u3@example.com".toList,
    name := "Three".toList, createdAt := 3, updatedAt := 3 }

def demoRows : List User := [demoU1, demoU2, demoU3]

/-- Every rune occupies at least one UTF-8 byte. -/
theorem utf8Len_pos (c : Char) : 1 ≤ utf8Len c := by
  unfold utf8Len; split_ifs <;> omega

/-- The rune count of a string never exceeds its UTF-8 byte length. -/
theorem length_le_strLen (s : List Char) : s.length ≤ strLen s := by
  induction s with
  | nil => simp [strLen]
  | cons c r ih => have := utf8Len_pos c; simp [strLen]; omega

/-- A string of one-byte runes has byte length equal to its rune count. -/
theorem strLen_eq_length (s : List Char) (h : ∀ c ∈ s, utf8Len c = 1) :
    strLen s = s.length := by
  induction s with
  | nil => rfl
  | cons c r ih =>
    simp only [strLen, List.length_cons, h c (by simp)]
    rw [ih (fun x hx => h x (by simp [hx]))]
    omega

theorem utf8Len_eq_one {c : Char} (h : c.toNat ≤ 127) : utf8Len c = 1 := by
  unfold utf8Len
  rw [if_pos h]

theorem isLocalChar_ascii {c : Char} (h : isLocalChar c = true) :
    utf8Len c = 1 := by
  simp only [isLocalChar, Bool.or_eq_true, Bool.and_eq_true,
    decide_eq_true_eq] at h
  casesm* _ ∨ _
  all_goals subst_vars
  all_goals first
    | exact utf8Len_eq_one (by omega)
    | rfl

theorem isDomainChar_ascii {c : Char} (h : isDomainChar c = true) :
    utf8Len c = 1 := by
  simp only [isDomainChar, Bool.or_eq_true, Bool.and_eq_true,
    decide_eq_true_eq] at h
  casesm* _ ∨ _
  all_goals subst_vars
  all_goals first
    | exact utf8Len_eq_one (by omega)
    | rfl

theorem isTldChar_ascii {c : Char} (h : isTldChar c = true) :
    utf8Len c = 1 := by
  simp only [isTldChar, Bool.or_eq_true, Bool.and_eq_true,
    decide_eq_true_eq] at h
  casesm* _ ∨ _
  all_goals exact utf8Len_eq_one (by omega)

/-- A TLD character is in particular a domain character. -/
theorem isTldChar_isDomainChar {c : Char} (h : isTldChar c = true) :
    isDomainChar c = true := by
  simp only [isTldChar, Bool.or_eq_true, Bool.and_eq_true,
    decide_eq_true_eq] at h
  simp only [isDomainChar, Bool.or_eq_true, Bool.and_eq_true,
    decide_eq_true_eq]
  tauto

theorem splitOnChar_ne_nil (sep : Char) (s : List Char) :
    splitOnChar sep s ≠ [] := by
  induction s with
  | nil => simp [splitOnChar]
  | cons c rest ih =>
    rw [splitOnChar]
    split
    · simp
    · split <;> simp

/-- Splitting a separator-free string yields the string itself. -/
theorem splitOnChar_of_not_mem {sep : Char} {s : List Char} (h : sep ∉ s) :
    splitOnChar sep s = [s] := by
  induction s with
  | nil => rfl
  | cons c rest ih =>
    have hc : ¬ c = sep := fun he => h (he ▸ List.mem_cons_self c rest)
    rw [splitOnChar, if_neg hc, ih (fun hm => h (List.mem_cons_of_mem c hm))]

/-- Splitting a string whose head run is separator-free. -/
theorem splitOnChar_append {sep : Char} {a b : List Char} (h : sep ∉ a) :
    splitOnChar sep (a ++ sep :: b) = a :: splitOnChar sep b := by
  induction a with
  | nil => simp [splitOnChar]
  | cons c a2 ih =>
    have hc : ¬ c = sep := fun he => h (he ▸ List.mem_cons_self c a2)
    rw [List.cons_append, splitOnChar, if_neg hc,
      ih (fun hm => h (List.mem_cons_of_mem c hm))]

theorem splitOnChar_eq_singleton_iff {sep : Char} {s x : List Char} :
    splitOnChar sep s = [x] ↔ s = x ∧ sep ∉ x := by
  constructor
  · intro h
    induction s generalizing x with
    | nil =>
      simp [splitOnChar] at h
      simp [h]
    | cons c rest ih =>
      rw [splitOnChar] at h
      by_cases hc : c = sep
      · rw [if_pos hc] at h
        simp at h
        exact absurd h.2 (splitOnChar_ne_nil sep rest)
      · rw [if_neg hc] at h
        rcases hr : splitOnChar sep rest with _ | ⟨y, tl⟩
        · exact absurd hr (splitOnChar_ne_nil sep rest)
        · rw [hr] at h
          simp at h
          obtain ⟨hx, htl⟩ := h
          obtain ⟨hy, hsep⟩ := ih (by rw [hr, htl])
          constructor
          · rw [← hx, hy]
          · rw [← hx]
            intro hm
            rcases List.mem_cons.mp hm with he | hm2
            · exact hc he.symm
            · exact hsep (hy ▸ hm2)
  · rintro ⟨rfl, hn⟩
    exact splitOnChar_of_not_mem hn

theorem splitOnChar_eq_pair_iff {sep : Char} {s a b : List Char} :
    splitOnChar sep s = [a, b] ↔ s = a ++ sep :: b ∧ sep ∉ a ∧ sep ∉ b := by
  constructor
  · intro h
    induction s generalizing a with
    | nil => simp [splitOnChar] at h
    | cons c rest ih =>
      rw [splitOnChar] at h
      by_cases hc : c = sep
      · rw [if_pos hc] at h
        simp at h
        obtain ⟨ha, hrest⟩ := h
        obtain ⟨hr, hnb⟩ := splitOnChar_eq_singleton_iff.mp hrest
        subst hc ha hr
        exact ⟨rfl, by simp, hnb⟩
      · rw [if_neg hc] at h
        rcases hr : splitOnChar sep rest with _ | ⟨y, tl⟩
        · exact absurd hr (splitOnChar_ne_nil sep rest)
        · rw [hr] at h
          simp at h
          obtain ⟨ha, htl⟩ := h
          obtain ⟨hrest2, hna, hnb⟩ := ih (by rw [hr, htl])
          subst ha
          refine ⟨by rw [List.cons_append, hrest2], ?_, hnb⟩
          intro hm
          rcases List.mem_cons.mp hm with he | hm2
          · exact hc he.symm
          · exact hna hm2
  · rintro ⟨rfl, hna, hnb⟩
    rw [splitOnChar_append hna, splitOnChar_of_not_mem hnb]

/-- The number of parts is one more than the number of separators. -/
theorem splitOnChar_length (sep : Char) (s : List Char) :
    (splitOnChar sep s).length = s.count sep + 1 := by
  induction s with
  | nil => simp [splitOnChar]
  | cons c rest ih =>
    rw [splitOnChar]
    by_cases hc : c = sep
    · subst hc
      rw [if_pos rfl]
      simp [List.count_cons_self, ih]
    · rw [if_neg hc]
      rcases hr : splitOnChar sep rest with _ | ⟨y, tl⟩
      · exact absurd hr (splitOnChar_ne_nil sep rest)
      · rw [hr] at ih
        simp at ih
        simp [List.count_cons_of_ne (Ne.symm hc), ih]

/-- A decomposition at a separator occurring exactly once is unique. -/
theorem append_sep_inj {sep : Char} {a b a2 b2 : List Char}
    (h : a ++ sep :: b = a2 ++ sep :: b2) (hna : sep ∉ a) (hna2 : sep ∉ a2) :
    a = a2 ∧ b = b2 := by
  induction a generalizing a2 with
  | nil =>
    rcases a2 with _ | ⟨y, a3⟩
    · simp_all
    · simp at h
      exact absurd (h.1 ▸ List.mem_cons_self y a3) hna2
  | cons x a3 ih =>
    rcases a2 with _ | ⟨y, a4⟩
    · simp at h
      exact absurd (h.1 ▸ List.mem_cons_self x a3) hna
    · simp at h
      obtain ⟨hxy, h2⟩ := h
      obtain ⟨ha, hb⟩ := ih h2 (fun hm => hna (List.mem_cons_of_mem x hm))
        (fun hm => hna2 (hxy ▸ List.mem_cons_of_mem y hm))
      exact ⟨by rw [hxy, ha], hb⟩

theorem dropWhile_append_cons {p : Char → Bool} {xs : List Char} {y : Char}
    {ys : List Char} (hxs : ∀ x ∈ xs, p x = true) (hy : p y = false) :
    (xs ++ y :: ys).dropWhile p = y :: ys := by
  induction xs with
  | nil => simp [List.dropWhile, hy]
  | cons x xs2 ih =>
    rw [List.cons_append, List.dropWhile_cons,
      if_pos (hxs x (List.mem_cons_self x xs2))]
    exact ih (fun z hz => hxs z (List.mem_cons_of_mem x hz))

theorem takeWhile_append_cons {p : Char → Bool} {xs : List Char} {y : Char}
    {ys : List Char} (hxs : ∀ x ∈ xs, p x = true) (hy : p y = false) :
    (xs ++ y :: ys).takeWhile p = xs := by
  induction xs with
  | nil => simp [List.takeWhile, hy]
  | cons x xs2 ih =>
    rw [List.cons_append, List.takeWhile_cons,
      if_pos (hxs x (List.mem_cons_self x xs2))]
    rw [ih (fun z hz => hxs z (List.mem_cons_of_mem x hz))]

theorem head_of_dropWhile_cons {p : Char → Bool} {l : List Char} {y : Char}
    {ys : List Char} (h : l.dropWhile p = y :: ys) : p y = false := by
  induction l with
  | nil => simp [List.dropWhile] at h
  | cons x l2 ih =>
    rw [List.dropWhile_cons] at h
    by_cases hp : p x
    · rw [if_pos hp] at h
      exact ih h
    · rw [if_neg hp] at h
      cases h
      exact Bool.eq_false_iff.mpr hp

theorem mem_of_takeWhile {p : Char → Bool} {l : List Char} {x : Char}
    (h : x ∈ l.takeWhile p) : p x = true := by
  induction l with
  | nil => simp [List.takeWhile] at h
  | cons y l2 ih =>
    rw [List.takeWhile_cons] at h
    by_cases hp : p y
    · rw [if_pos hp] at h
      rcases List.mem_cons.mp h with rfl | h2
      · exact hp
      · exact ih h2
    · rw [if_neg hp] at h
      simp at h

/-- Characterisation of `lastDotSplit`: it returns exactly the
decomposition of the string at its last dot. -/
theorem lastDotSplit_eq_some_iff {r m t : List Char} :
    lastDotSplit r = some (m, t) ↔ r = m ++ '.' :: t ∧ '.' ∉ t := by
  constructor
  · intro h
    unfold lastDotSplit at h
    rcases hd : r.reverse.dropWhile (fun c => c != '.') with _ | ⟨d, backRev⟩
    · rw [hd] at h
      simp at h
    · rw [hd] at h
      simp at h
      obtain ⟨hm, ht⟩ := h
      have hdfalse := head_of_dropWhile_cons (p := fun c => c != '.') hd
      have hdd : d = '.' := by simpa using hdfalse
      have hsplit := (List.takeWhile_append_dropWhile
        (p := fun c => c != '.') (l := r.reverse)).symm
      rw [hd, hdd] at hsplit
      have hr : r = backRev.reverse ++ '.' ::
          (r.reverse.takeWhile (fun c => c != '.')).reverse := by
        have h2 := congrArg List.reverse hsplit
        simpa using h2
      refine ⟨by rw [← hm, ← ht]; exact hr, ?_⟩
      rw [← ht]
      intro hmem
      have h3 := mem_of_takeWhile (List.mem_reverse.mp hmem)
      simp at h3
  · rintro ⟨rfl, hnt⟩
    unfold lastDotSplit
    have hrev : (m ++ '.' :: t).reverse = t.reverse ++ '.' :: m.reverse := by
      simp
    have hall : ∀ x ∈ t.reverse, (x != '.') = true := by
      intro x hx
      have hxt : x ∈ t := List.mem_reverse.mp hx
      simp
      intro he
      exact hnt (he ▸ hxt)
    have hdot : (('.' : Char) != '.') = false := by simp
    rw [hrev, dropWhile_append_cons hall hdot, takeWhile_append_cons hall hdot]
    simp

theorem prefixOf_iff {a b : List Char} :
    a.isPrefixOf b = true ↔ ∃ t, b = a ++ t := by
  induction a generalizing b with
  | nil => simp [List.isPrefixOf]
  | cons x a2 ih =>
    rcases b with _ | ⟨y, b2⟩
    · simp [List.isPrefixOf]
    · simp only [List.isPrefixOf, Bool.and_eq_true, beq_iff_eq]
      rw [ih]
      constructor
      · rintro ⟨rfl, t, rfl⟩
        exact ⟨t, rfl⟩
      · rintro ⟨t, ht⟩
        simp at ht
        exact ⟨ht.1.symm, t, ht.2⟩

/-- Characterisation of `containsSub`: Go `strings.Contains` holds
exactly when the pattern occurs as a contiguous substring. -/
theorem containsSub_iff {sub s : List Char} :
    containsSub sub s = true ↔ ∃ a b, s = a ++ sub ++ b := by
  induction s with
  | nil =>
    simp [containsSub, List.isEmpty_iff]
  | cons c rest ih =>
    rw [containsSub, Bool.or_eq_true, prefixOf_iff, ih]
    constructor
    · rintro (⟨t, ht⟩ | ⟨a, b, hab⟩)
      · exact ⟨[], t, by simp [ht]⟩
      · exact ⟨c :: a, b, by simp [hab]⟩
    · rintro ⟨a, b, hab⟩
      rcases a with _ | ⟨x, a2⟩
      · exact Or.inl ⟨b, by simpa using hab⟩
      · simp at hab
        exact Or.inr ⟨a2, b, by simp [hab.1, hab.2]⟩

theorem not_mem_of_all {p : Char → Bool} {l : List Char}
    (h : l.all p = true) {c : Char} (hc : p c = false) : c ∉ l := by
  intro hm
  have h2 := List.all_eq_true.mp h c hm
  rw [hc] at h2
  exact Bool.false_ne_true h2

theorem bnot_isEmpty_of_ne {l : List Char} (h : l ≠ []) :
    (!l.isEmpty) = true := by
  cases l with
  | nil => exact absurd rfl h
  | cons c r => rfl

theorem ne_nil_of_bnot_isEmpty {l : List Char} (h : (!l.isEmpty) = true) :
    l ≠ [] := by
  cases l with
  | nil => simp at h
  | cons c r => simp

/-- The executable matcher `emailRegex` accepts exactly the language of
the pattern `^[a-zA-Z0-9._%+-]+@[a-zA-Z0-9.-]+\.[a-zA-Z]{2,}$`: a
nonempty local part over its class, `'@'`, a nonempty domain rest over
its class, `'.'`, and a top-level label of at least two letters. -/
theorem emailRegex_iff {s : List Char} :
    emailRegex s = true ↔
      ∃ lp dr t, s = lp ++ '@' :: (dr ++ '.' :: t) ∧
        lp ≠ [] ∧ lp.all isLocalChar = true ∧
        dr ≠ [] ∧ dr.all isDomainChar = true ∧
        2 ≤ t.length ∧ t.all isTldChar = true := by
  constructor
  · intro h
    unfold emailRegex at h
    rcases hsp : splitOnChar '@' s with _ | ⟨lp, _ | ⟨rest, _ | _⟩⟩
    · exact absurd hsp (splitOnChar_ne_nil _ _)
    · rw [hsp] at h
      simp at h
    · rw [hsp] at h
      simp only [Bool.and_eq_true] at h
      obtain ⟨⟨hlp, hlpall⟩, hmatch⟩ := h
      rcases hld : lastDotSplit rest with _ | ⟨dr, t⟩
      · rw [hld] at hmatch
        simp at hmatch
      · rw [hld] at hmatch
        simp only [Bool.and_eq_true, decide_eq_true_eq] at hmatch
        obtain ⟨⟨⟨hdr, hdrall⟩, hlen⟩, htall⟩ := hmatch
        obtain ⟨hs, -, -⟩ := splitOnChar_eq_pair_iff.mp hsp
        obtain ⟨hrest, -⟩ := lastDotSplit_eq_some_iff.mp hld
        exact ⟨lp, dr, t, by rw [hs, hrest], ne_nil_of_bnot_isEmpty hlp,
          hlpall, ne_nil_of_bnot_isEmpty hdr, hdrall, hlen, htall⟩
    · rw [hsp] at h
      simp at h
  · rintro ⟨lp, dr, t, rfl, hlp, hlpall, hdr, hdrall, hlen, htall⟩
    have hat_lp : '@' ∉ lp := not_mem_of_all hlpall (by decide)
    have hat_rest : '@' ∉ dr ++ '.' :: t := by
      intro hm
      rcases List.mem_append.mp hm with hm | hm
      · exact not_mem_of_all hdrall (by decide) hm
      · rcases List.mem_cons.mp hm with he | hm2
        · exact absurd he (by decide)
        · exact not_mem_of_all htall (by decide) hm2
    have hdot_t : '.' ∉ t := not_mem_of_all htall (by decide)
    unfold emailRegex
    rw [splitOnChar_eq_pair_iff.mpr ⟨rfl, hat_lp, hat_rest⟩]
    simp only [Bool.and_eq_true]
    rw [lastDotSplit_eq_some_iff.mpr ⟨rfl, hdot_t⟩]
    simp only [Bool.and_eq_true, decide_eq_true_eq]
    exact ⟨⟨bnot_isEmpty_of_ne hlp, hlpall⟩,
      ⟨⟨bnot_isEmpty_of_ne hdr, hdrall⟩, hlen⟩, htall⟩

/-- Structural characterisation of `isValidEmail`: the five gates of the
source function (byte length, regex, exactly one `'@'`, no consecutive
dots, no leading or trailing dot in either part). -/
theorem isValidEmail_eq_true_iff {s : List Char} :
    isValidEmail s = true ↔
      strLen s ≤ 254 ∧ emailRegex s = true ∧
      ∃ lp dp, splitOnChar '@' s = [lp, dp] ∧
        containsSub dotDot s = false ∧
        (['.'].isPrefixOf lp || ['.'].isSuffixOf lp) = false ∧
        (['.'].isPrefixOf dp || ['.'].isSuffixOf dp) = false := by
  unfold isValidEmail
  by_cases h1 : maxEmailLength < strLen s
  · rw [if_pos h1]
    simp only [maxEmailLength] at h1
    simp only [Bool.false_eq_true, false_iff]
    intro hcon
    omega
  · rw [if_neg h1]
    simp only [maxEmailLength, not_lt] at h1
    by_cases h2 : emailRegex s = true
    · rw [if_neg (by rw [h2]; simp)]
      rcases hsp : splitOnChar '@' s with _ | ⟨lp, _ | ⟨dp, _ | _⟩⟩
      · exact absurd hsp (splitOnChar_ne_nil _ _)
      · simp
      · simp only []
        split_ifs with h3 h4 h5
        · simp only [Bool.false_eq_true, false_iff]
          rintro ⟨-, -, lp2, dp2, -, hdd, -, -⟩
          rw [h3] at hdd
          simp at hdd
        · simp only [Bool.false_eq_true, false_iff]
          rintro ⟨-, -, lp2, dp2, heq, -, hl, -⟩
          simp only [List.cons.injEq, and_true] at heq
          rw [← heq.1, h4] at hl
          simp at hl
        · simp only [Bool.false_eq_true, false_iff]
          rintro ⟨-, -, lp2, dp2, heq, -, -, hd⟩
          simp only [List.cons.injEq, and_true] at heq
          rw [← heq.2, h5] at hd
          simp at hd
        · simp only [true_iff]
          exact ⟨h1, h2, lp, dp, rfl, Bool.eq_false_iff.mpr h3,
            Bool.eq_false_iff.mpr h4, Bool.eq_false_iff.mpr h5⟩
      · simp
    · rw [if_pos (by rw [Bool.eq_false_iff.mpr h2]; rfl)]
      simp only [Bool.false_eq_true, false_iff]
      rintro ⟨-, hreg, -⟩
      exact h2 hreg

theorem mem_insertByCreatedDesc {u x : User} {l : List User} :
    x ∈ insertByCreatedDesc u l ↔ x = u ∨ x ∈ l := by
  induction l with
  | nil => simp [insertByCreatedDesc]
  | cons v rest ih =>
    rw [insertByCreatedDesc]
    by_cases hc : v.createdAt ≤ u.createdAt
    · rw [if_pos hc]
      simp [List.mem_cons]
    · rw [if_neg hc]
      simp only [List.mem_cons, ih]
      tauto

theorem pairwise_insertByCreatedDesc {u : User} {l : List User}
    (h : l.Pairwise createdDescOrder) :
    (insertByCreatedDesc u l).Pairwise createdDescOrder := by
  induction l with
  | nil => simp [insertByCreatedDesc]
  | cons v rest ih =>
    rw [insertByCreatedDesc]
    rw [List.pairwise_cons] at h
    obtain ⟨hv, hrest⟩ := h
    by_cases hc : v.createdAt ≤ u.createdAt
    · rw [if_pos hc]
      rw [List.pairwise_cons]
      refine ⟨?_, List.pairwise_cons.mpr ⟨hv, hrest⟩⟩
      intro x hx
      rcases List.mem_cons.mp hx with rfl | hx2
      · exact hc
      · exact Nat.le_trans (hv x hx2) hc
    · rw [if_neg hc]
      rw [List.pairwise_cons]
      refine ⟨?_, ih hrest⟩
      intro x hx
      rcases mem_insertByCreatedDesc.mp hx with rfl | hx2
      · exact Nat.le_of_lt (Nat.lt_of_not_le hc)
      · exact hv x hx2

theorem pairwise_sortByCreatedDesc (l : List User) :
    (sortByCreatedDesc l).Pairwise createdDescOrder := by
  induction l with
  | nil => simp [sortByCreatedDesc]
  | cons u rest ih => exact pairwise_insertByCreatedDesc ih

theorem pairwise_pgList (rows : List User) (limit offset : Int) :
    (pgList rows limit offset).Pairwise createdDescOrder := by
  have h1 := pairwise_sortByCreatedDesc rows
  have h2 : ∀ l : List User, l.Pairwise createdDescOrder →
      (l.drop offset.toNat).Pairwise createdDescOrder :=
    fun l hl => List.Pairwise.sublist (List.drop_sublist _ _) hl
  have h3 : ∀ l : List User, l.Pairwise createdDescOrder →
      (l.take limit.toNat).Pairwise createdDescOrder :=
    fun l hl => List.Pairwise.sublist (List.take_sublist _ _) hl
  unfold pgList
  simp only []
  split_ifs <;>
    first
      | exact h3 _ (h2 _ h1)
      | exact h3 _ h1
      | exact h2 _ h1
      | exact h1


/-- C1: `CreateUser` looks up by email first.  A successful lookup
yields `DuplicateEmail` (for every repository, in particular whatever
`create` does — nothing is constructed or persisted); a lookup failure
other than `NotFound` propagates unchanged; on `NotFound` the
construction and persistence errors propagate and a successful
construction followed by a successful write returns the user; and when
the write itself reports a unique-constraint violation on email (the
`pgCreate` mapping of the adapter), the caller receives
`DuplicateEmail`, not a generic store error. -/
theorem createUser_flow (repo : Repo) (freshId : List Char) (now : Nat)
    (email name : List Char) :
    (∀ u, repo.getByEmail email = .ok u →
      CreateUser repo freshId now email name = .error .duplicateEmail) ∧
    (∀ e, repo.getByEmail email = .error e → e ≠ .userNotFound →
      CreateUser repo freshId now email name = .error e) ∧
    (repo.getByEmail email = .error .userNotFound →
      (∀ e, NewUser freshId now email name = .error e →
        CreateUser repo freshId now email name = .error e) ∧
      (∀ u, NewUser freshId now email name = .ok u →
        (∀ e, repo.create u = .error e →
          CreateUser repo freshId now email name = .error e) ∧
        (repo.create u = .ok () →
          CreateUser repo freshId now email name = .ok u))) ∧
    (∀ msg u, repo.getByEmail email = .error .userNotFound →
      NewUser freshId now email name = .ok u →
      repo.create u = pgCreate (some msg) →
      containsSub pgDupText msg = true → containsSub emailText msg = true →
      CreateUser repo freshId now email name = .error .duplicateEmail) := by
  refine ⟨?_, ?_, ?_, ?_⟩
  · intro u hget
    unfold CreateUser
    rw [hget]
  · intro e hget hne
    unfold CreateUser
    rw [hget]
    simp only []
    rw [if_pos hne]
  · intro hget
    constructor
    · intro e hnew
      unfold CreateUser
      rw [hget]
      simp only []
      rw [if_neg (by simp), hnew]
    · intro u hnew
      constructor
      · intro e hcr
        unfold CreateUser
        rw [hget]
        simp only []
        rw [if_neg (by simp), hnew]
        simp only []
        rw [hcr]
      · intro hcr
        unfold CreateUser
        rw [hget]
        simp only []
        rw [if_neg (by simp), hnew]
        simp only []
        rw [hcr]
  · intro msg u hget hnew hcr hdup hmail
    have hdupe : isDuplicateEmailError msg = true := by
      unfold isDuplicateEmailError
      rw [if_pos (by rw [hdup]; simp)]
      exact hmail
    have hpg : pgCreate (some msg) = .error .duplicateEmail := by
      unfold pgCreate
      simp only []
      rw [if_pos hdupe]
    unfold CreateUser
    rw [hget]
    simp only []
    rw [if_neg (by simp), hnew]
    simp only []
    rw [hcr, hpg]

/-- C4: `UpdateName` never changes `id`, `email` or `createdAt`; on
success the name becomes the trimmed input and `updatedAt` becomes
`now`, which under the monotonic-clock hypothesis is at least the
previous `updatedAt`; on validation failure the returned error is
`InvalidName` and the entity is returned entirely unchanged. -/
theorem updateName_frame (u : User) (now : Nat) (n : List Char)
    (hmono : u.updatedAt ≤ now) :
    ((UpdateName u now n).1.id = u.id ∧
     (UpdateName u now n).1.email = u.email ∧
     (UpdateName u now n).1.createdAt = u.createdAt) ∧
    ((UpdateName u now n).2 = none →
      (UpdateName u now n).1.name = TrimSpace n ∧
      (UpdateName u now n).1.updatedAt = now ∧
      u.updatedAt ≤ (UpdateName u now n).1.updatedAt) ∧
    (∀ e, (UpdateName u now n).2 = some e →
      e = Err.invalidName ∧ (UpdateName u now n).1 = u) := by
  unfold UpdateName
  rcases hv : isValidName (TrimSpace n) with _ | e0
  · exact ⟨⟨rfl, rfl, rfl⟩, fun _ => ⟨rfl, rfl, hmono⟩, fun e he => by simp at he⟩
  · refine ⟨⟨rfl, rfl, rfl⟩, fun hc => by simp at hc, fun e he => ?_⟩
    have he2 : e0 = e := by simpa using he
    subst he2
    refine ⟨?_, rfl⟩
    unfold isValidName at hv
    split_ifs at hv <;> simpa using hv.symm

/-- C5: `UpdateUser` fetches by id and propagates any fetch error
(`NotFound` included); a failed rename yields `InvalidName` for every
possible `update` implementation (the store update is not reached); a
successful rename is persisted via `update`, whose error propagates,
and on success the mutated entity is returned. -/
theorem updateUser_flow (repo : Repo) (now : Nat) (id name : List Char) :
    (∀ e, repo.getByID id = .error e →
      UpdateUser repo now id name = .error e) ∧
    (∀ u, repo.getByID id = .ok u → (UpdateName u now name).2 ≠ none →
      ∀ upd, UpdateUser { repo with update := upd } now id name =
        .error .invalidName) ∧
    (∀ u u2, repo.getByID id = .ok u → UpdateName u now name = (u2, none) →
      (∀ e, repo.update u2 = .error e →
        UpdateUser repo now id name = .error e) ∧
      (repo.update u2 = .ok () → UpdateUser repo now id name = .ok u2)) := by
  refine ⟨?_, ?_, ?_⟩
  · intro e hget
    unfold UpdateUser
    rw [hget]
  · intro u hget hfail upd
    unfold UpdateUser
    simp only []
    rw [hget]
    simp only []
    rcases hun : UpdateName u now name with ⟨u2, _ | e0⟩
    · rw [hun] at hfail
      simp at hfail
    · have he : e0 = Err.invalidName := by
        unfold UpdateName at hun
        rcases hv : isValidName (TrimSpace name) with _ | e1
        · rw [hv] at hun
          simp at hun
        · rw [hv] at hun
          simp only [Prod.mk.injEq] at hun
          have h1 : e1 = Err.invalidName := by
            unfold isValidName at hv
            split_ifs at hv <;> simpa using hv.symm
          have h2 : e0 = e1 := by
            have := hun.2
            simpa using this.symm
          rw [h2, h1]
      rw [he]
  · intro u u2 hget hun
    constructor
    · intro e hupd
      unfold UpdateUser
      rw [hget]
      simp only []
      rw [hun]
      simp only []
      rw [hupd]
    · intro hupd
      unfold UpdateUser
      rw [hget]
      simp only []
      rw [hun]
      simp only []
      rw [hupd]

/-- C7: `NewUser` validates the email first and fails fast: an invalid
email yields `InvalidEmail` whatever the name is (name validation is
not reached); with a valid email the trimmed name is validated, its
error is returned on failure, and on success the entity carries the
freshly allocated identifier and `createdAt = updatedAt = now`. -/
theorem newUser_validation_order (freshId : List Char) (now : Nat) :
    (∀ email name, isValidEmail email = false →
      NewUser freshId now email name = .error Err.invalidEmail) ∧
    (∀ email name, isValidEmail email = true →
      (∀ e, isValidName (TrimSpace name) = some e →
        NewUser freshId now email name = .error e) ∧
      (isValidName (TrimSpace name) = none →
        NewUser freshId now email name =
          .ok { id := freshId, email := email, name := TrimSpace name,
                createdAt := now, updatedAt := now })) ∧
    (∀ email name u, NewUser freshId now email name = .ok u →
      u.id = freshId ∧ u.createdAt = now ∧ u.updatedAt = now) := by
  refine ⟨?_, ?_, ?_⟩
  · intro email name hbad
    unfold NewUser
    rw [if_pos (by rw [hbad]; rfl)]
  · intro email name hok
    have hcond : (!isValidEmail email) ≠ true := by rw [hok]; simp
    constructor
    · intro e hv
      unfold NewUser
      rw [if_neg hcond, hv]
    · intro hv
      unfold NewUser
      rw [if_neg hcond, hv]
  · intro email name u hnew
    unfold NewUser at hnew
    split_ifs at hnew
    rcases hv : isValidName (TrimSpace name) with _ | e0
    · rw [hv] at hnew
      simp only [Except.ok.injEq] at hnew
      rw [← hnew]
      exact ⟨rfl, rfl, rfl⟩
    · rw [hv] at hnew
      simp at hnew

/-- C9: the invariant `updatedAt ≥ createdAt`.  `NewUser` establishes
it by setting both fields to the same `now`, and `UpdateName` — the
only mutating operation — preserves it under the monotonic-clock
hypothesis, never touching `createdAt`. -/
theorem updatedAt_ge_createdAt (freshId : List Char) (now : Nat)
    (email name : List Char) :
    (∀ u, NewUser freshId now email name = .ok u →
      u.createdAt ≤ u.updatedAt ∧ u.createdAt = now ∧ u.updatedAt = now) ∧
    (∀ u n now2, u.createdAt ≤ u.updatedAt → u.updatedAt ≤ now2 →
      (UpdateName u now2 n).1.createdAt ≤ (UpdateName u now2 n).1.updatedAt ∧
      (UpdateName u now2 n).1.createdAt = u.createdAt) := by
  constructor
  · intro u hnew
    unfold NewUser at hnew
    split_ifs at hnew
    rcases hv : isValidName (TrimSpace name) with _ | e0
    · rw [hv] at hnew
      simp only [Except.ok.injEq] at hnew
      rw [← hnew]
      exact ⟨Nat.le_refl now, rfl, rfl⟩
    · rw [hv] at hnew
      simp at hnew
  · intro u n now2 hinv hmono
    unfold UpdateName
    rcases hv : isValidName (TrimSpace n) with _ | e0
    · exact ⟨Nat.le_trans hinv hmono, rfl⟩
    · exact ⟨hinv, rfl⟩

theorem one_le_strLen_of_ne_nil {t : List Char} (h : t ≠ []) :
    1 ≤ strLen t := by
  cases t with
  | nil => exact absurd rfl h
  | cons c r =>
    have := utf8Len_pos c
    simp [strLen]
    omega

theorem dropWhile_eq_nil_of_all {p : Char → Bool} {l : List Char}
    (h : ∀ x ∈ l, p x = true) : l.dropWhile p = [] := by
  induction l with
  | nil => rfl
  | cons c r ih =>
    rw [List.dropWhile_cons, if_pos (h c (List.mem_cons_self c r))]
    exact ih (fun x hx => h x (List.mem_cons_of_mem c hx))

theorem decomp_eq_of_count_one {sep : Char} {s a b a2 b2 : List Char}
    (h1 : s = a ++ sep :: b) (h2 : s = a2 ++ sep :: b2)
    (hc : s.count sep = 1) : a = a2 ∧ b = b2 := by
  have hkey : ∀ x y : List Char, s = x ++ sep :: y → sep ∉ x := by
    intro x y hxy
    rw [hxy, List.count_append, List.count_cons_self] at hc
    have hx : x.count sep = 0 := by omega
    exact (List.count_eq_zero.mp hx)
  exact append_sep_inj (h1 ▸ h2) (hkey a b h1) (hkey a2 b2 h2)

/-- C2: email validation against the §4.1 grammar.  Rejection: any
string with two consecutive dots, any decomposition `lp@dp` whose local
or domain part starts or ends with a dot, any string of more than 254
characters, and any string without exactly one `'@'` are all rejected.
Acceptance: a decomposition into a local part over its character class,
`'@'`, a domain over its class ending in a final label of at least two
letters, within 254 characters and free of dot-placement violations, is
accepted. -/
theorem isValidEmail_grammar :
    (∀ s a b : List Char, s = a ++ '.' :: '.' :: b →
      isValidEmail s = false) ∧
    (∀ s lp dp : List Char, s = lp ++ '@' :: dp →
      ((['.'].isPrefixOf lp || ['.'].isSuffixOf lp) = true ∨
       (['.'].isPrefixOf dp || ['.'].isSuffixOf dp) = true) →
      isValidEmail s = false) ∧
    (∀ s : List Char, 254 < s.length → isValidEmail s = false) ∧
    (∀ s : List Char, s.count '@' ≠ 1 → isValidEmail s = false) ∧
    (∀ lp dr t : List Char, lp ≠ [] → lp.all isLocalChar = true →
      dr.all isDomainChar = true → t.all isTldChar = true → 2 ≤ t.length →
      (lp ++ '@' :: (dr ++ '.' :: t)).length ≤ 254 →
      containsSub dotDot (lp ++ '@' :: (dr ++ '.' :: t)) = false →
      (['.'].isPrefixOf lp || ['.'].isSuffixOf lp) = false →
      (['.'].isPrefixOf (dr ++ '.' :: t) ||
        ['.'].isSuffixOf (dr ++ '.' :: t)) = false →
      isValidEmail (lp ++ '@' :: (dr ++ '.' :: t)) = true) := by
  refine ⟨?_, ?_, ?_, ?_, ?_⟩
  · intro s a b hs
    cases hval : isValidEmail s with
    | false => rfl
    | true =>
      obtain ⟨-, -, lp, dp, -, hdd, -, -⟩ := isValidEmail_eq_true_iff.mp hval
      have hct : containsSub dotDot s = true :=
        containsSub_iff.mpr ⟨a, b, by simp [hs, dotDot]⟩
      rw [hct] at hdd
      simp at hdd
  · intro s lp dp hs hviol
    cases hval : isValidEmail s with
    | false => rfl
    | true =>
      obtain ⟨-, -, lp2, dp2, hsp, -, hl, hd⟩ :=
        isValidEmail_eq_true_iff.mp hval
      have hcount : s.count '@' = 1 := by
        have hlen := splitOnChar_length '@' s
        rw [hsp] at hlen
        simp at hlen
        omega
      obtain ⟨hs2, -, -⟩ := splitOnChar_eq_pair_iff.mp hsp
      obtain ⟨heq1, heq2⟩ := decomp_eq_of_count_one hs hs2 hcount
      rcases hviol with hv | hv
      · rw [heq1, hl] at hv
        simp at hv
      · rw [heq2, hd] at hv
        simp at hv
  · intro s hlong
    cases hval : isValidEmail s with
    | false => rfl
    | true =>
      obtain ⟨hstr, -, -⟩ := isValidEmail_eq_true_iff.mp hval
      have := length_le_strLen s
      omega
  · intro s hcount
    cases hval : isValidEmail s with
    | false => rfl
    | true =>
      obtain ⟨-, -, lp, dp, hsp, -, -, -⟩ := isValidEmail_eq_true_iff.mp hval
      have hlen := splitOnChar_length '@' s
      rw [hsp] at hlen
      simp at hlen
      omega
  · intro lp dr t hlp hlpall hdrall htall hlen hcharlen hdd hldot hddot
    have hdr : dr ≠ [] := by
      rintro rfl
      simp [List.isPrefixOf] at hddot
    have hat_lp : '@' ∉ lp := not_mem_of_all hlpall (by decide)
    have hat_rest : '@' ∉ dr ++ '.' :: t := by
      intro hm
      rcases List.mem_append.mp hm with hm | hm
      · exact not_mem_of_all hdrall (by decide) hm
      · rcases List.mem_cons.mp hm with he | hm2
        · exact absurd he (by decide)
        · exact not_mem_of_all htall (by decide) hm2
    have hreg : emailRegex (lp ++ '@' :: (dr ++ '.' :: t)) = true :=
      emailRegex_iff.mpr ⟨lp, dr, t, rfl, hlp, hlpall, hdr, hdrall,
        hlen, htall⟩
    have hascii : ∀ c ∈ lp ++ '@' :: (dr ++ '.' :: t), utf8Len c = 1 := by
      intro c hc
      rcases List.mem_append.mp hc with hm | hm
      · exact isLocalChar_ascii (List.all_eq_true.mp hlpall c hm)
      · rcases List.mem_cons.mp hm with rfl | hm2
        · rfl
        · rcases List.mem_append.mp hm2 with hm3 | hm3
          · exact isDomainChar_ascii (List.all_eq_true.mp hdrall c hm3)
          · rcases List.mem_cons.mp hm3 with rfl | hm4
            · rfl
            · exact isTldChar_ascii (List.all_eq_true.mp htall c hm4)
    have hstr : strLen (lp ++ '@' :: (dr ++ '.' :: t)) ≤ 254 := by
      rw [strLen_eq_length _ hascii]
      exact hcharlen
    have hsp : splitOnChar '@' (lp ++ '@' :: (dr ++ '.' :: t)) =
        [lp, dr ++ '.' :: t] :=
      splitOnChar_eq_pair_iff.mpr ⟨rfl, hat_lp, hat_rest⟩
    exact isValidEmail_eq_true_iff.mpr
      ⟨hstr, hreg, lp, dr ++ '.' :: t, hsp, hdd, hldot, hddot⟩

set_option maxRecDepth 10000 in
/-- C3 counterexample: a name of 128 copies of the two-byte rune `'é'`
is 128 characters long after trimming — within `[1, 255]` characters —
yet `isValidName` rejects it, because the source checks Go `len`,
i.e. the UTF-8 byte length (here 256). -/
theorem isValidName_char_length_counterexample :
    1 ≤ (TrimSpace (List.replicate 128 'é')).length ∧
    (TrimSpace (List.replicate 128 'é')).length ≤ 255 ∧
    isValidName (TrimSpace (List.replicate 128 'é')) =
      some Err.invalidName := by
  decide

/-- C3 (amended): name validation trims leading and trailing
whitespace (tabs and newlines included) and accepts exactly when the
trimmed value's UTF-8 byte length is in `[1, 255]`; an empty or
all-whitespace value trims to empty and yields `InvalidName`, as does a
trimmed byte length above 255; on acceptance the trimmed value — never
the raw input — is what `NewUser` and `UpdateName` store. -/
theorem isValidName_trim_spec (name : List Char) :
    (isValidName (TrimSpace name) = none ↔
      1 ≤ strLen (TrimSpace name) ∧ strLen (TrimSpace name) ≤ 255) ∧
    (∀ e, isValidName (TrimSpace name) = some e → e = Err.invalidName) ∧
    ((∀ c ∈ name, goIsSpace c = true) →
      TrimSpace name = [] ∧ isValidName (TrimSpace name) =
        some Err.invalidName) ∧
    (∀ u now u2, UpdateName u now name = (u2, none) →
      u2.name = TrimSpace name) ∧
    (∀ fid now email u2, NewUser fid now email name = .ok u2 →
      u2.name = TrimSpace name) := by
  refine ⟨?_, ?_, ?_, ?_, ?_⟩
  · unfold isValidName
    split_ifs with h1 h2
    · simp only [reduceCtorEq, false_iff]
      rintro ⟨hge, -⟩
      rw [h1] at hge
      simp [strLen] at hge
    · simp only [reduceCtorEq, false_iff]
      simp only [maxNameLength] at h2
      rintro ⟨-, hle⟩
      omega
    · simp only [true_iff]
      simp only [maxNameLength, not_lt] at h2
      exact ⟨one_le_strLen_of_ne_nil h1, h2⟩
  · intro e he
    unfold isValidName at he
    split_ifs at he <;> simpa using he.symm
  · intro hall
    have htrim : TrimSpace name = [] := by
      unfold TrimSpace
      rw [dropWhile_eq_nil_of_all hall]
      rfl
    rw [htrim]
    exact ⟨rfl, rfl⟩
  · intro u now u2 hun
    unfold UpdateName at hun
    rcases hv : isValidName (TrimSpace name) with _ | e0
    · rw [hv] at hun
      simp only [Prod.mk.injEq] at hun
      rw [← hun.1]
    · rw [hv] at hun
      simp at hun
  · intro fid now email u2 hnew
    unfold NewUser at hnew
    split_ifs at hnew
    rcases hv : isValidName (TrimSpace name) with _ | e0
    · rw [hv] at hnew
      simp only [Except.ok.injEq] at hnew
      rw [← hnew]
    · rw [hv] at hnew
      simp at hnew

/-- C6: constructing from a validated email and a name whose trimmed
form passes validation always succeeds, and reading back yields the
original email and the trimmed name; in particular constructing from
`"test@example.com"` and `"  Jane Doe  "` succeeds with name
`"Jane Doe"`. -/
theorem newUser_roundTrip :
    (∀ fid now email name, isValidEmail email = true →
      isValidName (TrimSpace name) = none →
      ∃ u, NewUser fid now email name = .ok u ∧
        u.email = email ∧ u.name = TrimSpace name) ∧
    (∀ fid now, ∃ u,
      NewUser fid now "test@example.com".toList "  Jane Doe  ".toList =
        .ok u ∧ u.name = "Jane Doe".toList) := by
  constructor
  · intro fid now email name hem hnm
    have hres : NewUser fid now email name =
        .ok ⟨fid, email, TrimSpace name, now, now⟩ := by
      unfold NewUser
      rw [if_neg (by rw [hem]; simp), hnm]
    exact ⟨_, hres, rfl, rfl⟩
  · intro fid now
    refine ⟨⟨fid, "test@example.com".toList, "Jane Doe".toList, now, now⟩, ?_, rfl⟩
    unfold NewUser
    rw [if_neg (by rw [show isValidEmail ("test@example.com".toList) = true
      from by decide]; simp)]
    rw [show isValidName (TrimSpace ("  Jane Doe  ".toList)) = none
      from by decide]
    rw [show TrimSpace ("  Jane Doe  ".toList) = "Jane Doe".toList
      from by decide]

/-- C8: `ListUsers` is a pure passthrough of the pagination bounds to
the store's listing; the store's listing is ordered by `createdAt`
descending; and against a store of three users created at times 1, 2, 3
the call `ListUsers 2 0` returns exactly the two newest users, newest
first. -/
theorem listUsers_passthrough_ordered :
    (∀ repo limit offset, ListUsers repo limit offset =
      repo.list limit offset) ∧
    (∀ rows limit offset,
      (pgList rows limit offset).Pairwise createdDescOrder) ∧
    ListUsers (repoOf demoRows) 2 0 = .ok [demoU3, demoU2] := by
  refine ⟨fun repo limit offset => rfl, pairwise_pgList, ?_⟩
  rfl

/-- C10: emails are handled verbatim, with case-sensitive exact
matching and no normalisation: `NewUser` stores the email exactly as
supplied, `pgGetByEmail` returns only a user whose stored email is
string-equal to the query, and two emails differing only in letter case
can both be created and coexist as distinct users. -/
theorem email_case_sensitive :
    (∀ fid now email name u, NewUser fid now email name = .ok u →
      u.email = email) ∧
    (∀ rows e u, pgGetByEmail rows e = .ok u → u.email = e) ∧
    (∃ u1 u2 : User,
      CreateUser (repoOf []) "id-1".toList 1 "user@example.com".toList
        "First".toList = .ok u1 ∧
      CreateUser (repoOf [u1]) "id-2".toList 2 "User@example.com".toList
        "Second".toList = .ok u2 ∧
      u1.email ≠ u2.email) := by
  refine ⟨?_, ?_, ?_⟩
  · intro fid now email name u hnew
    unfold NewUser at hnew
    split_ifs at hnew
    rcases hv : isValidName (TrimSpace name) with _ | e0
    · rw [hv] at hnew
      simp only [Except.ok.injEq] at hnew
      rw [← hnew]
    · rw [hv] at hnew
      simp at hnew
  · intro rows e u hget
    unfold pgGetByEmail at hget
    rcases hf : rows.find? (fun v => v.email == e) with _ | v
    · rw [hf] at hget
      simp at hget
    · rw [hf] at hget
      simp only [Except.ok.injEq] at hget
      have hp := List.find?_some hf
      rw [← hget]
      simpa using hp
  · refine ⟨⟨"id-1".toList, "user@example.com".toList, "First".toList, 1, 1⟩,
      ⟨"id-2".toList, "User@example.com".toList, "Second".toList, 2, 2⟩, ?_, ?_, ?_⟩
    · rfl
    · rfl
    · decide

theorem createUser_flow_witness :
    CreateUser (repoOf [demoU1]) ("id-9".toList) 9 ("u1@example.com".toList)
      ("Name".toList) = .error Err.duplicateEmail :=
  (createUser_flow (repoOf [demoU1]) ("id-9".toList) 9
    ("u1@example.com".toList) ("Name".toList)).1 demoU1 rfl

theorem isValidEmail_grammar_witness :
    isValidEmail ("test..user@example.com".toList) = false ∧
    isValidEmail ("test@example.com".toList) = true := by
  constructor
  · exact isValidEmail_grammar.1 _ ("test".toList)
      ("user@example.com".toList) (by decide)
  · have heq : ("test@example.com".toList) =
        "test".toList ++ '@' :: ("example".toList ++ '.' :: "com".toList) := by
      decide
    rw [heq]
    exact isValidEmail_grammar.2.2.2.2 ("test".toList) ("example".toList)
      ("com".toList) (by decide) (by decide) (by decide) (by decide)
      (by decide) (by decide) (by decide) (by decide) (by decide)

theorem isValidName_trim_spec_witness :
    isValidName (TrimSpace ("  Jane Doe  ".toList)) = none :=
  (isValidName_trim_spec ("  Jane Doe  ".toList)).1.mpr (by decide)

theorem updateName_frame_witness :
    (UpdateName demoU1 5 ("  New  ".toList)).1.name = "New".toList ∧
    (UpdateName demoU1 5 ("  New  ".toList)).1.updatedAt = 5 := by
  obtain ⟨-, hsucc, -⟩ := updateName_frame demoU1 5 ("  New  ".toList)
    (by decide)
  have h2 := hsucc (by decide)
  refine ⟨?_, h2.2.1⟩
  rw [h2.1]
  decide

theorem updateUser_flow_witness :
    UpdateUser (repoOf demoRows) 9 ("zz".toList) ("x".toList) =
      .error Err.userNotFound :=
  (updateUser_flow (repoOf demoRows) 9 ("zz".toList) ("x".toList)).1
    Err.userNotFound rfl

theorem newUser_roundTrip_witness :
    ∃ u, NewUser ("fid".toList) 7 ("a@b.cd".toList) (" Al ".toList) =
      .ok u ∧ u.email = "a@b.cd".toList ∧ u.name = TrimSpace (" Al ".toList) :=
  newUser_roundTrip.1 ("fid".toList) 7 ("a@b.cd".toList) (" Al ".toList)
    (by decide) (by decide)

theorem newUser_validation_order_witness :
    NewUser ("f".toList) 3 ("bad".toList) ("Name".toList) =
      .error Err.invalidEmail :=
  (newUser_validation_order ("f".toList) 3).1 ("bad".toList)
    ("Name".toList) (by decide)

theorem updatedAt_ge_createdAt_witness :
    (UpdateName demoU1 4 ("N".toList)).1.createdAt ≤
      (UpdateName demoU1 4 ("N".toList)).1.updatedAt :=
  ((updatedAt_ge_createdAt ("f".toList) 0 ("a@b.cd".toList)
    ("N".toList)).2 demoU1 ("N".toList) 4 (by decide) (by decide)).1

theorem email_case_sensitive_witness :
    demoU1.email = "u1@example.com".toList :=
  email_case_sensitive.2.1 demoRows ("u1@example.com".toList) demoU1 rfl
